import Mathlib

set_option maxRecDepth 4000

/-
Verification of the synbioblast ingestion/dedup pipeline and the
reconciliation layer.  The definitions below are a shallow embedding of
the Go sources slurper.go and synbioblast.go: the redis store is a pair
of a file map (the fasta directory) and a key-to-set map (redis sets),
machine strings are Lean strings, and SHA-1 is implemented over Nat
with explicit reduction modulo 2^32.
-/

namespace SynBioBlast

/-! ## Content hasher: SHA-1 over the byte sequence of the UTF-8 string,
formatted as lowercase hex.  Embeds sequence.Hash from slurper.go, which
calls crypto/sha1 and formats the digest with Sprintf %x. -/

/-- Truncation to a 32-bit word, written as explicit mod. -/
def w32 (n : Nat) : Nat := n % 4294967296

/-- Left rotation of a 32-bit word. -/
def rotl32 (n k : Nat) : Nat := w32 (n <<< k) ||| (n >>> (32 - k))

/-- Big-endian decoding of groups of four bytes into 32-bit words. -/
def beWords : List Nat → List Nat
  | b0 :: b1 :: b2 :: b3 :: rest =>
    ((b0 <<< 24) ||| (b1 <<< 16) ||| (b2 <<< 8) ||| b3) :: beWords rest
  | _ => []

/-- Message-schedule extension: appends k further words, each a rotation
of the xor of the words 3, 8, 14 and 16 positions back. -/
def extendW : Nat → List Nat → List Nat
  | 0, w => w
  | k + 1, w =>
    extendW k (w ++ [rotl32 ((w.getD (w.length - 3) 0) ^^^ (w.getD (w.length - 8) 0) ^^^
      (w.getD (w.length - 14) 0) ^^^ (w.getD (w.length - 16) 0)) 1])

/-- One SHA-1 round on the five-word working state. -/
def sha1Round (i a b c d e wi : Nat) : Nat × Nat × Nat × Nat × Nat :=
  let f :=
    if i < 20 then (b &&& c) ||| ((b ^^^ 4294967295) &&& d)
    else if i < 40 then b ^^^ c ^^^ d
    else if i < 60 then (b &&& c) ||| (b &&& d) ||| (c &&& d)
    else b ^^^ c ^^^ d
  let k :=
    if i < 20 then 1518500249
    else if i < 40 then 1859775393
    else if i < 60 then 2400959708
    else 3395469782
  (w32 (rotl32 a 5 + f + e + k + wi), a, rotl32 b 30, c, d)

/-- The five 32-bit hash words of SHA-1. -/
structure SHA1State where
  h0 : Nat
  h1 : Nat
  h2 : Nat
  h3 : Nat
  h4 : Nat

/-- SHA-1 initialization vector. -/
def sha1Init : SHA1State := ⟨1732584193, 4023233417, 2562383102, 271733878, 3285377520⟩

/-- Compression of one 64-byte chunk into the running hash state. -/
def processChunk (st : SHA1State) (chunk : List Nat) : SHA1State :=
  let w := extendW 64 (beWords chunk)
  let r := (List.range 80).foldl
    (fun acc i =>
      match acc with
      | (a, b, c, d, e) => sha1Round i a b c d e (w.getD i 0))
    (st.h0, st.h1, st.h2, st.h3, st.h4)
  ⟨w32 (st.h0 + r.1), w32 (st.h1 + r.2.1), w32 (st.h2 + r.2.2.1),
   w32 (st.h3 + r.2.2.2.1), w32 (st.h4 + r.2.2.2.2)⟩

/-- Big-endian encoding of a 64-bit length, as eight bytes. -/
def be64 (n : Nat) : List Nat :=
  [(n >>> 56) % 256, (n >>> 48) % 256, (n >>> 40) % 256, (n >>> 32) % 256,
   (n >>> 24) % 256, (n >>> 16) % 256, (n >>> 8) % 256, n % 256]

/-- SHA-1 padding: a 0x80 byte, zeros to 56 mod 64, then the bit length. -/
def sha1Pad (msg : List Nat) : List Nat :=
  msg ++ 128 :: (List.replicate ((119 - msg.length % 64) % 64) 0 ++ be64 (8 * msg.length))

/-- Splits a byte list into 64-byte chunks; the fuel argument bounds the
recursion and is passed as the list length, which suffices since every
step consumes at least one byte. -/
def chunksF : Nat → List Nat → List (List Nat)
  | _, [] => []
  | 0, _ => []
  | fuel + 1, l => l.take 64 :: chunksF fuel (l.drop 64)

/-- Splits a byte list into 64-byte chunks. -/
def chunks (l : List Nat) : List (List Nat) := chunksF l.length l

/-- Big-endian split of one hash word into four bytes. -/
def wordBytes (w : Nat) : List Nat :=
  [(w >>> 24) % 256, (w >>> 16) % 256, (w >>> 8) % 256, w % 256]

/-- The 20-byte SHA-1 digest obtained from the final hash state. -/
def digestBytes (st : SHA1State) : List Nat :=
  wordBytes st.h0 ++ wordBytes st.h1 ++ wordBytes st.h2 ++ wordBytes st.h3 ++ wordBytes st.h4

/-- SHA-1 digest of a byte message. -/
def sha1Bytes (msg : List Nat) : List Nat :=
  digestBytes ((chunks (sha1Pad msg)).foldl processChunk sha1Init)

/-- The sixteen lowercase hex digit characters. -/
def hexDigits : List Char := ("0123456789abcdef" : String).data

/-- Hex digit for a value below 16. -/
def hexDigit (n : Nat) : Char := hexDigits.getD n '0'

/-- Two lowercase hex digits per byte, as Sprintf %x prints a byte slice. -/
def hexChars : List Nat → List Char
  | [] => []
  | b :: t => hexDigit (b / 16) :: hexDigit (b % 16) :: hexChars t

/-- Lowercase hex string of a byte list. -/
def hexOfBytes (l : List Nat) : String := String.mk (hexChars l)

/-- UTF-8 encoding of one character, as Go strings store text. -/
def charUTF8 (c : Char) : List Nat :=
  let n := c.toNat
  if n < 128 then [n]
  else if n < 2048 then [192 ||| (n >>> 6), 128 ||| (n &&& 63)]
  else if n < 65536 then
    [224 ||| (n >>> 12), 128 ||| ((n >>> 6) &&& 63), 128 ||| (n &&& 63)]
  else
    [240 ||| (n >>> 18), 128 ||| ((n >>> 12) &&& 63), 128 ||| ((n >>> 6) &&& 63),
     128 ||| (n &&& 63)]

/-- UTF-8 bytes of a character list. -/
def bytesOfChars : List Char → List Nat
  | [] => []
  | c :: t => charUTF8 c ++ bytesOfChars t

/-- UTF-8 bytes of a string, the input io.WriteString feeds to sha1. -/
def bytesOfString (s : String) : List Nat := bytesOfChars s.data

/-- Embeds sequence.Hash: sha1 of the string, formatted as lowercase hex. -/
def hashString (s : String) : String := hexOfBytes (sha1Bytes (bytesOfString s))

/-! ## Parsing: sparql XML results to sequence records.
Embeds the result and binding types, getValue, parseSparqlTime and
parse from slurper.go.  The XML transport layer is external; a page is
taken as the already-decoded list of results. -/

/-- Lower-casing of a string, modelling strings.ToLower from the Go
standard library on the ASCII sequences this pipeline handles. -/
def normalize (s : String) : String := String.mk (s.data.map Char.toLower)

/-- A sparql variable binding, as decoded from the result XML. -/
structure binding where
  Name : String
  Value : String
  Datatype : String
deriving DecidableEq

/-- One row of a sparql result page. -/
structure result where
  Bindings : List binding
deriving DecidableEq

/-- Embeds result.getValue: the value of the first binding with the
given name, or the empty string when no binding carries that name. -/
def result.getValue (r : result) (name : String) : String :=
  match r.Bindings.find? (fun b => b.Name == name) with
  | some b => b.Value
  | none => ""

/-- A row has no binding at all for the given variable name. -/
def missingField (r : result) (name : String) : Prop :=
  ∀ b ∈ r.Bindings, b.Name ≠ name

instance (r : result) (name : String) : Decidable (missingField r name) := by
  unfold missingField
  infer_instance

/-- Calendar data parsed from an RFC 3339 timestamp. -/
structure SparqlTime where
  year : Nat
  month : Nat
  day : Nat
  hour : Nat
  minute : Nat
  second : Nat
  nanos : Nat
  zoneMinutes : Int
deriving DecidableEq

/-- Digit value of an ASCII digit character. -/
def digitVal (c : Char) : Nat := c.toNat - 48

/-- Decimal value of a digit list. -/
def digitsToNat (l : List Char) : Nat := l.foldl (fun a c => a * 10 + digitVal c) 0

/-- Leap year rule of the Gregorian calendar. -/
def isLeap (y : Nat) : Bool := (y % 4 == 0 && y % 100 != 0) || y % 400 == 0

/-- Days in a month, with February depending on the leap year rule. -/
def daysInMonth (y m : Nat) : Nat :=
  if m == 2 then (if isLeap y then 29 else 28)
  else if m == 4 || m == 6 || m == 9 || m == 11 then 30 else 31

/-- Time zone suffix of an RFC 3339 timestamp: Z, or a signed hh:mm offset. -/
def parseZone : List Char → Option Int
  | ['Z'] => some 0
  | sgn :: h1 :: h2 :: sep :: m1 :: m2 :: [] =>
    if (sgn == '+' || sgn == '-') && h1.isDigit && h2.isDigit && sep == ':' &&
        m1.isDigit && m2.isDigit then
      let hh := digitsToNat [h1, h2]
      let mm := digitsToNat [m1, m2]
      if hh ≤ 23 ∧ mm ≤ 59 then
        let off : Int := hh * 60 + mm
        some (if sgn == '-' then -off else off)
      else none
    else none
  | _ => none

/-- Optional fractional second followed by the mandatory zone suffix. -/
def parseFracZone : List Char → Option (Nat × Int)
  | [] => none
  | c :: rest =>
    if c == '.' then
      let ds := rest.takeWhile Char.isDigit
      if ds.isEmpty then none
      else
        match parseZone (rest.dropWhile Char.isDigit) with
        | some z => some (digitsToNat (ds.take 9) * 10 ^ (9 - min 9 ds.length), z)
        | none => none
    else
      match parseZone (c :: rest) with
      | some z => some (0, z)
      | none => none

/-- Embeds parseSparqlTime: time.Parse with the RFC 3339 layout, which
validates the field structure and the calendar ranges of the timestamp.
Modelled from the documented behavior of the Go standard library. -/
def parseSparqlTime (str : String) : Option SparqlTime :=
  match str.data with
  | y1 :: y2 :: y3 :: y4 :: p1 :: mo1 :: mo2 :: p2 :: d1 :: d2 :: tc :: h1 :: h2 ::
      q1 :: mi1 :: mi2 :: q2 :: s1 :: s2 :: rest =>
    if y1.isDigit && y2.isDigit && y3.isDigit && y4.isDigit && p1 == '-' &&
        mo1.isDigit && mo2.isDigit && p2 == '-' && d1.isDigit && d2.isDigit &&
        tc == 'T' && h1.isDigit && h2.isDigit && q1 == ':' && mi1.isDigit &&
        mi2.isDigit && q2 == ':' && s1.isDigit && s2.isDigit then
      let year := digitsToNat [y1, y2, y3, y4]
      let month := digitsToNat [mo1, mo2]
      let day := digitsToNat [d1, d2]
      let hour := digitsToNat [h1, h2]
      let minute := digitsToNat [mi1, mi2]
      let second := digitsToNat [s1, s2]
      if 1 ≤ month ∧ month ≤ 12 ∧ 1 ≤ day ∧ day ≤ daysInMonth year month ∧
          hour ≤ 23 ∧ minute ≤ 59 ∧ second ≤ 59 then
        match parseFracZone rest with
        | some fz => some ⟨year, month, day, hour, minute, second, fz.1, fz.2⟩
        | none => none
      else none
    else none
  | _ => none

/-- A parsed upstream record: source URI, normalized sequence, creation time. -/
structure sequence where
  URI : String
  Sequence : String
  Created : SparqlTime
deriving DecidableEq

/-- Embeds sequence.Hash from slurper.go. -/
def sequence.Hash (s : sequence) : String := hashString s.Sequence

/-- One iteration of the parse loop: getValue for uri and elements never
fails (empty string when missing), the sequence is lower-cased, and a
timestamp that does not parse is fatal for the page. -/
def parseResult (r : result) : Option sequence :=
  match parseSparqlTime (r.getValue "created") with
  | some t => some ⟨r.getValue "uri", normalize (r.getValue "elements"), t⟩
  | none => none

/-- Embeds parse from slurper.go: log.Fatal inside the loop is modelled
as none for the whole page. -/
def parse : List result → Option (List sequence)
  | [] => some []
  | r :: rest =>
    match parseResult r with
    | none => none
    | some s =>
      match parse rest with
      | none => none
      | some ss => some (s :: ss)

/-! ## The store: fasta directory plus redis sets.
Embeds process from slurper.go.  Filenames are relative to the fasta
directory; redis keys follow the default flag values of slurper.go and
synbioblast.go: the dedup set key sequenceHashSet and the per-hash key
built from the sequence key base. -/

/-- Redis key of the set of all seen hashes (flag redis.sequenceHashSet). -/
def dedupSetKey : String := "sequenceHashSet"

/-- Redis key of the identifier set for one hash: the default key base
sequence, a colon, and the hash. -/
def seqSetKey (h : String) : String := "sequence:" ++ h

/-- Fasta filename for a hash, relative to the fasta directory. -/
def fastaName (h : String) : String := h ++ ".fasta"

/-- File bytes written for a record, per the Sprintf format string. -/
def fastaContent (s : sequence) : String :=
  ">" ++ sequence.Hash s ++ "\n" ++ s.Sequence ++ "\n"

/-- Durable state shared by the slurper and the front end: the fasta
directory as a map from filename to contents, and the redis sets as a
map from key to member list (a redis set with no members is the same as
an absent key, so the empty list stands for both). -/
@[ext]
structure Store where
  fastas : String → Option String
  sets : String → List String

/-- The state with no files and no set members. -/
def emptyStore : Store := ⟨fun _ => none, fun _ => []⟩

/-- Pointwise file write (ioutil.WriteFile replaces the contents). -/
def updF (m : String → Option String) (k v : String) : String → Option String :=
  fun n => if n = k then some v else m n

/-- Pointwise SADD: appends the member to the set at the key unless it
is already present. -/
def saddF (g : String → List String) (k m : String) : String → List String :=
  fun n => if n = k then (if m ∈ g k then g k else g k ++ [m]) else g n

/-- One iteration of the process loop: write the fasta file, SADD the
hash to the dedup set, SADD the URI to the per-hash identifier set. -/
def processOne (st : Store) (s : sequence) : Store :=
  ⟨updF st.fastas (fastaName s.Hash) (fastaContent s),
   saddF (saddF st.sets dedupSetKey s.Hash) (seqSetKey s.Hash) s.URI⟩

/-- Embeds process from slurper.go: the storing loop over a page. -/
def process (st : Store) (seqs : List sequence) : Store := seqs.foldl processOne st

/-! ## The main loop: cursor and backoff.
Embeds main from slurper.go.  A run is a list of cycles; each cycle
carries its parsed page and either completes (process then INCRBY by
the page length) or hits log.Fatal after k records of the storing loop,
which stops the program before the INCRBY. -/

/-- Harvester state: the durable store and the redis offset value. -/
structure SysState where
  store : Store
  offset : Int

/-- One completed cycle: process the page, then INCRBY by its length. -/
def runCycle (st : SysState) (page : List sequence) : SysState :=
  ⟨process st.store page, st.offset + (page.length : Int)⟩

/-- A run of cycles; a cycle marked with some k dies after k records of
the storing phase, leaving the offset untouched and ending the run. -/
def runTrace (st : SysState) : List (List sequence × Option Nat) → SysState
  | [] => st
  | (page, none) :: rest => runTrace (runCycle st page) rest
  | (page, some k) :: _ => ⟨process st.store (page.take k), st.offset⟩

/-- Embeds the startup block of main: GET of the offset key; a nil
reply sets the key to 0 and starts at 0, otherwise the stored integer
is used.  The pair is the offset used and the key value afterwards. -/
def startupOffset : Option Int → Int × Option Int
  | none => (0, some 0)
  | some n => (n, some n)

/-- Startup followed by a run of cycles. -/
def mainRun (kv : Option Int) (st0 : Store) (tr : List (List sequence × Option Nat)) :
    SysState :=
  runTrace ⟨st0, (startupOffset kv).1⟩ tr

/-- One second in Go duration units (nanoseconds). -/
def timeSecond : Nat := 1000000000

/-- One hour in Go duration units. -/
def timeHour : Nat := 3600 * timeSecond

/-- Embeds the backoff branch of the main loop: a page smaller than the
result limit sleeps four hours, a full page sleeps two seconds. -/
def mainLoopSleep (seqs : List sequence) (limit : Nat) : Nat :=
  if seqs.length < limit then timeHour * 4 else timeSecond * 2

/-! ## Reconciliation.
Embeds BlastResults.getURIs from synbioblast.go: one pipelined SMEMBERS
per hit, answered in order, assigned back by index. -/

/-- One hit decoded from the blast XML output. -/
structure blastResult where
  SeqHash : String
  BitScore : Float
  Score : Int
  EValue : String
  QuerySeq : String
  Midline : String
  HitSeq : String
  URIs : List String

/-- A hit with its URIs field replaced. -/
def withURIs (r : blastResult) (u : List String) : blastResult :=
  ⟨r.SeqHash, r.BitScore, r.Score, r.EValue, r.QuerySeq, r.Midline, r.HitSeq, u⟩

/-- SMEMBERS: the member list at a key; an absent key gives the empty
list, not an error. -/
def smembers (st : Store) (k : String) : List String := st.sets k

/-- Embeds getURIs: each hit receives the identifier set stored under
the per-hash key of its Hit_def hash, in input order. -/
def getURIs (st : Store) (rs : List blastResult) : List blastResult :=
  rs.map fun r => withURIs r (smembers st (seqSetKey r.SeqHash))

/-! ## Helper functions for the proofs below. -/

/-- The last record of a page whose fasta filename is n. -/
def lastWrite (l : List sequence) (n : String) : Option sequence :=
  match l with
  | [] => none
  | s :: t =>
    match lastWrite t n with
    | some q => some q
    | none => if fastaName (sequence.Hash s) = n then some s else none

/-- The file map after the storing loop over a page. -/
def fastasAfter (l : List sequence) (m : String → Option String) :
    String → Option String :=
  match l with
  | [] => m
  | s :: t => fastasAfter t (updF m (fastaName (sequence.Hash s)) (fastaContent s))

/-- The set map after the storing loop over a page. -/
def setsAfter (l : List sequence) (g : String → List String) : String → List String :=
  match l with
  | [] => g
  | s :: t =>
    setsAfter t (saddF (saddF g dedupSetKey (sequence.Hash s))
      (seqSetKey (sequence.Hash s)) s.URI)

/-- Every record of the page already has its hash in the dedup set and
its URI in its per-hash set. -/
def pairHolds (g : String → List String) (l : List sequence) : Prop :=
  ∀ s ∈ l, sequence.Hash s ∈ g dedupSetKey ∧ s.URI ∈ g (seqSetKey (sequence.Hash s))

/-! ## Specification predicates named by the claims. -/

/-- Sequence Store and Dedup Index entries correspond: a fasta file for
a hash exists exactly when the hash is in the dedup set, and exactly
when its identifier set is non-empty. -/
def Inv (st : Store) : Prop :=
  ∀ h : String,
    ((st.fastas (fastaName h)).isSome ↔ h ∈ st.sets dedupSetKey) ∧
    ((st.fastas (fastaName h)).isSome ↔ st.sets (seqSetKey h) ≠ [])

/-- Any file present after a storing phase was present before or is the
tagged fasta of a record of the page. -/
def fileOrigin (st : Store) (l : List sequence) (n c : String) : Prop :=
  st.fastas n = some c ∨
    ∃ q, q ∈ l ∧ n = fastaName (sequence.Hash q) ∧ c = fastaContent q

/-- The content hash of a record: forty lowercase hex characters, the
SHA-1 digest of the normalized sequence. -/
def hashSpec (s : sequence) : Prop :=
  (sequence.Hash s).length = 40 ∧
  (∀ c ∈ (sequence.Hash s).data, c ∈ hexDigits) ∧
  sequence.Hash s = hexOfBytes (sha1Bytes (bytesOfString s.Sequence))

/-- Outcome of ingesting two records with equal normalized sequences:
one fasta file, a singleton dedup set, both URIs in the one identifier
set, and no other hash with a non-empty identifier set. -/
def dedupOutcome (r1 r2 : sequence) : Prop :=
  (process emptyStore [r1, r2]).fastas =
    (fun n => if n = fastaName (sequence.Hash r1) then some (fastaContent r1) else none) ∧
  (process emptyStore [r1, r2]).sets dedupSetKey = [sequence.Hash r1] ∧
  r1.URI ∈ (process emptyStore [r1, r2]).sets (seqSetKey (sequence.Hash r1)) ∧
  r2.URI ∈ (process emptyStore [r1, r2]).sets (seqSetKey (sequence.Hash r1)) ∧
  ∀ h : String,
    (process emptyStore [r1, r2]).sets (seqSetKey h) ≠ [] → h = sequence.Hash r1

/-- Two raw strings that differ only in letter case. -/
def caseEq (r1 r2 : String) : Prop :=
  r1.data.map Char.toLower = r2.data.map Char.toLower

/-! ## Concrete data used by the witnesses. -/

/-- Timestamp 2020-01-01T00:00:00Z. -/
def sampleTime : SparqlTime := ⟨2020, 1, 1, 0, 0, 0, 0, 0⟩

/-- Timestamp 2020-01-02T00:00:00Z. -/
def sampleTime2 : SparqlTime := ⟨2020, 1, 2, 0, 0, 0, 0, 0⟩

/-- Record u1 with sequence acgt. -/
def recU1 : sequence := ⟨"u1", "acgt", sampleTime⟩

/-- Record u2 with the same sequence acgt. -/
def recU2 : sequence := ⟨"u2", "acgt", sampleTime2⟩

/-- Record u3 with a different sequence. -/
def recU3 : sequence := ⟨"u3", "ttaa", sampleTime⟩

/-- A result row with elements and created but no uri binding. -/
def resNoURI : result :=
  ⟨[⟨"elements", "ACGT", ""⟩, ⟨"created", "2020-01-01T00:00:00Z", ""⟩]⟩

/-- A result row with uri and elements but no created binding. -/
def resNoCreated : result := ⟨[⟨"uri", "u1", ""⟩, ⟨"elements", "ACGT", ""⟩]⟩

/-- A one-row page missing the uri field. -/
def pageNoURI : List result := [resNoURI]

/-- A one-row page missing the created field. -/
def pageNoCreated : List result := [resNoCreated]

/-- A store holding one unrelated file. -/
def storeFlat : Store :=
  ⟨fun n => if n = "k.fasta" then some "x" else none, fun _ => []⟩

/-- A blast hit whose hash has a stored identifier set. -/
def hitA : blastResult := ⟨"aabb", 1.5, 10, "0.001", "acgt", "||||", "acgt", []⟩

/-- A blast hit whose hash has no dedup entry. -/
def hitB : blastResult := ⟨"ffff", 0.5, 3, "0.2", "acgt", "||", "aagt", []⟩

/-- A store with identifiers only for the hash aabb. -/
def storeAB : Store :=
  ⟨fun _ => none, fun k => if k = seqSetKey "aabb" then ["u1", "u2"] else []⟩

/-! ## String and key lemmas. -/

theorem string_data_append (a b : String) : (a ++ b).data = a.data ++ b.data := by
  cases a; cases b; rfl

theorem fastaName_inj {h1 h2 : String} (h : fastaName h1 = fastaName h2) : h1 = h2 := by
  unfold fastaName at h
  have hd := congrArg String.data h
  rw [string_data_append, string_data_append] at hd
  have h2d := List.append_cancel_right hd
  cases h1; cases h2
  exact congrArg String.mk h2d

theorem seqSetKey_inj {h1 h2 : String} (h : seqSetKey h1 = seqSetKey h2) : h1 = h2 := by
  unfold seqSetKey at h
  have hd := congrArg String.data h
  rw [string_data_append, string_data_append] at hd
  have h2d := List.append_cancel_left hd
  cases h1; cases h2
  exact congrArg String.mk h2d

theorem seqSetKey_ne_dedup (h : String) : seqSetKey h ≠ dedupSetKey := by
  intro he
  have hd := congrArg String.data he
  rw [seqSetKey, string_data_append] at hd
  have h8 : (("sequence:" : String).data ++ h.data)[8]? = (dedupSetKey : String).data[8]? := by
    rw [hd]
  rw [List.getElem?_append_left (by decide)] at h8
  revert h8
  decide

/-! ## Pointwise store operation lemmas. -/

theorem updF_self (m : String → Option String) (k v : String) : updF m k v k = some v := by
  simp [updF]

theorem updF_other (m : String → Option String) (k v n : String) (h : n ≠ k) :
    updF m k v n = m n := by
  simp [updF, h]

theorem saddF_at (g : String → List String) (k m : String) :
    saddF g k m k = if m ∈ g k then g k else g k ++ [m] := by
  simp [saddF]

theorem saddF_other (g : String → List String) (k m n : String) (h : n ≠ k) :
    saddF g k m n = g n := by
  simp [saddF, h]

theorem saddF_self_mem (g : String → List String) (k m : String) : m ∈ saddF g k m k := by
  rw [saddF_at]
  by_cases hm : m ∈ g k
  · simp [hm]
  · simp [hm]

theorem saddF_mem_mono (g : String → List String) (k m n x : String) (h : x ∈ g n) :
    x ∈ saddF g k m n := by
  unfold saddF
  by_cases hn : n = k
  · subst hn
    by_cases hm : m ∈ g n
    · simp [hm, h]
    · simp only [if_pos rfl, if_neg hm]
      exact List.mem_append_left _ h
  · simpa [hn] using h

theorem saddF_noop (g : String → List String) (k m : String) (h : m ∈ g k) :
    saddF g k m = g := by
  funext n
  unfold saddF
  by_cases hn : n = k
  · subst hn; simp [h]
  · simp [hn]

theorem saddF_nonempty (g : String → List String) (k m : String) : saddF g k m k ≠ [] := by
  rw [saddF_at]
  by_cases hm : m ∈ g k
  · simp only [if_pos hm]
    exact List.ne_nil_of_mem hm
  · simp [hm]

theorem saddF_mem_iff (g : String → List String) (k m n x : String) (hx : x ≠ m) :
    x ∈ saddF g k m n ↔ x ∈ g n := by
  unfold saddF
  by_cases hn : n = k
  · subst hn
    by_cases hm : m ∈ g n
    · simp [hm]
    · simp [hm, List.mem_append, hx]
  · simp [hn]

/-! ## Decomposition of the storing loop into its two components. -/

theorem process_nil (st : Store) : process st [] = st := rfl

theorem process_cons (st : Store) (s : sequence) (t : List sequence) :
    process st (s :: t) = process (processOne st s) t := rfl

theorem process_fastas (l : List sequence) :
    ∀ st : Store, (process st l).fastas = fastasAfter l st.fastas := by
  induction l with
  | nil => intro st; rfl
  | cons s t ih =>
    intro st
    rw [process_cons, ih]
    rfl

theorem process_sets (l : List sequence) :
    ∀ st : Store, (process st l).sets = setsAfter l st.sets := by
  induction l with
  | nil => intro st; rfl
  | cons s t ih =>
    intro st
    rw [process_cons, ih]
    rfl

theorem fastasAfter_eq (l : List sequence) :
    ∀ (m : String → Option String) (n : String),
      fastasAfter l m n = (lastWrite l n).elim (m n) (fun q => some (fastaContent q)) := by
  induction l with
  | nil => intro m n; rfl
  | cons s t ih =>
    intro m n
    show fastasAfter t (updF m (fastaName (sequence.Hash s)) (fastaContent s)) n = _
    rw [ih]
    cases hlw : lastWrite t n with
    | some q => simp [lastWrite, hlw]
    | none =>
      by_cases hn : fastaName (sequence.Hash s) = n
      · subst hn
        simp [lastWrite, hlw, updF]
      · have hn2 : n ≠ fastaName (sequence.Hash s) := fun he => hn he.symm
        simp [lastWrite, hlw, updF, hn, hn2]

theorem fastasAfter_idem (l : List sequence) (m : String → Option String) :
    fastasAfter l (fastasAfter l m) = fastasAfter l m := by
  funext n
  rw [fastasAfter_eq, fastasAfter_eq]
  cases hlw : lastWrite l n with
  | some q => rfl
  | none => simp [Option.elim, fastasAfter_eq, hlw]

theorem setsAfter_mem_mono (l : List sequence) :
    ∀ (g : String → List String) (k x : String), x ∈ g k → x ∈ setsAfter l g k := by
  induction l with
  | nil => intro g k x h; exact h
  | cons s t ih =>
    intro g k x h
    exact ih _ _ _ (saddF_mem_mono _ _ _ _ _ (saddF_mem_mono _ _ _ _ _ h))

theorem pairHolds_after (l : List sequence) :
    ∀ g : String → List String, pairHolds (setsAfter l g) l := by
  induction l with
  | nil => intro g s hs; cases hs
  | cons s t ih =>
    intro g q hq
    rcases List.mem_cons.mp hq with rfl | hq'
    · constructor
      · exact setsAfter_mem_mono t _ _ _
          (saddF_mem_mono _ _ _ _ _ (saddF_self_mem _ _ _))
      · exact setsAfter_mem_mono t _ _ _ (saddF_self_mem _ _ _)
    · exact ih _ q hq'

theorem setsAfter_noop (l : List sequence) :
    ∀ g : String → List String, pairHolds g l → setsAfter l g = g := by
  induction l with
  | nil => intro g _; rfl
  | cons s t ih =>
    intro g h
    obtain ⟨hdk, hsk⟩ := h s (List.mem_cons_self s t)
    show setsAfter t (saddF (saddF g dedupSetKey (sequence.Hash s))
      (seqSetKey (sequence.Hash s)) s.URI) = g
    rw [saddF_noop g dedupSetKey (sequence.Hash s) hdk,
      saddF_noop g (seqSetKey (sequence.Hash s)) s.URI hsk]
    exact ih g (fun q hq => h q (List.mem_cons_of_mem s hq))

theorem setsAfter_idem (l : List sequence) (g : String → List String) :
    setsAfter l (setsAfter l g) = setsAfter l g :=
  setsAfter_noop l _ (pairHolds_after l g)

/-- Claim C6: running the storing phase twice on a page yields the same
Sequence Store and Dedup Index state as running it once: the file write
for a hash and the set-adds of the hash and its identifiers are
idempotent. -/
theorem process_idempotent (st : Store) (l : List sequence) :
    process (process st l) l = process st l := by
  apply Store.ext
  · rw [process_fastas, process_fastas]
    exact fastasAfter_idem l st.fastas
  · rw [process_sets, process_sets]
    exact setsAfter_idem l st.sets

/-! ## Preservation of the store/index correspondence. -/

theorem inv_processOne (st : Store) (s : sequence) (h : Inv st) : Inv (processOne st s) := by
  intro hh
  by_cases hcase : hh = sequence.Hash s
  · subst hcase
    constructor
    · constructor
      · intro _
        show sequence.Hash s ∈ saddF (saddF st.sets dedupSetKey (sequence.Hash s))
          (seqSetKey (sequence.Hash s)) s.URI dedupSetKey
        apply saddF_mem_mono
        exact saddF_self_mem _ _ _
      · intro _
        show (updF st.fastas (fastaName (sequence.Hash s)) (fastaContent s)
          (fastaName (sequence.Hash s))).isSome
        rw [updF_self]
        rfl
    · constructor
      · intro _
        exact saddF_nonempty _ _ _
      · intro _
        show (updF st.fastas (fastaName (sequence.Hash s)) (fastaContent s)
          (fastaName (sequence.Hash s))).isSome
        rw [updF_self]
        rfl
  · have hfn : fastaName hh ≠ fastaName (sequence.Hash s) :=
      fun he => hcase (fastaName_inj he)
    have hsk : seqSetKey hh ≠ seqSetKey (sequence.Hash s) :=
      fun he => hcase (seqSetKey_inj he)
    have hfast : (processOne st s).fastas (fastaName hh) = st.fastas (fastaName hh) :=
      updF_other _ _ _ _ hfn
    have hseq : (processOne st s).sets (seqSetKey hh) = st.sets (seqSetKey hh) := by
      show saddF (saddF st.sets dedupSetKey (sequence.Hash s))
        (seqSetKey (sequence.Hash s)) s.URI (seqSetKey hh) = _
      rw [saddF_other _ _ _ _ hsk, saddF_other _ _ _ _ (seqSetKey_ne_dedup hh)]
    have hded : hh ∈ (processOne st s).sets dedupSetKey ↔ hh ∈ st.sets dedupSetKey := by
      show hh ∈ saddF (saddF st.sets dedupSetKey (sequence.Hash s))
        (seqSetKey (sequence.Hash s)) s.URI dedupSetKey ↔ _
      rw [saddF_other _ _ _ _ (fun he => seqSetKey_ne_dedup _ he.symm)]
      exact saddF_mem_iff _ _ _ _ _ hcase
    rw [hfast, hseq, hded]
    exact h hh

theorem inv_process (l : List sequence) : ∀ st : Store, Inv st → Inv (process st l) := by
  induction l with
  | nil => intro st h; exact h
  | cons s t ih =>
    intro st h
    rw [process_cons]
    exact ih _ (inv_processOne st s h)

theorem processOne_fastas_mono (st : Store) (s : sequence) (n : String)
    (h : (st.fastas n).isSome) : ((processOne st s).fastas n).isSome := by
  show (updF st.fastas (fastaName (sequence.Hash s)) (fastaContent s) n).isSome
  unfold updF
  by_cases hn : n = fastaName (sequence.Hash s)
  · simp [hn]
  · simpa [hn] using h

theorem process_fastas_mono (l : List sequence) :
    ∀ (st : Store) (n : String), (st.fastas n).isSome → ((process st l).fastas n).isSome := by
  induction l with
  | nil => intro st n h; exact h
  | cons s t ih =>
    intro st n h
    rw [process_cons]
    exact ih _ _ (processOne_fastas_mono st s n h)

theorem process_sets_mono (l : List sequence) :
    ∀ (st : Store) (k m : String), m ∈ st.sets k → m ∈ (process st l).sets k := by
  intro st k m h
  rw [process_sets]
  exact setsAfter_mem_mono l _ _ _ h

/-- Claim C7: after every completed storing phase, the Sequence Store
and the Dedup Index correspond (a fasta file exists for a hash exactly
when the hash is in the dedup set and exactly when its identifier set
is non-empty), and no operation ever removes a file, a dedup-set
member, or an identifier. -/
theorem store_dedup_invariant :
    (∀ (st : Store) (l : List sequence), Inv st → Inv (process st l)) ∧
    (∀ (st : Store) (l : List sequence) (n : String),
      (st.fastas n).isSome → ((process st l).fastas n).isSome) ∧
    (∀ (st : Store) (l : List sequence) (k m : String),
      m ∈ st.sets k → m ∈ (process st l).sets k) :=
  ⟨fun st l h => inv_process l st h,
   fun st l n h => process_fastas_mono l st n h,
   fun st l k m h => process_sets_mono l st k m h⟩

theorem inv_emptyStore : Inv emptyStore := by
  intro h
  simp [Inv, emptyStore]

/-- Witness for C7 at a concrete page starting from the empty store. -/
theorem store_dedup_invariant_witness :
    Inv emptyStore ∧ Inv (process emptyStore [recU1, recU3]) :=
  ⟨inv_emptyStore, store_dedup_invariant.1 emptyStore [recU1, recU3] inv_emptyStore⟩

/-! ## Parse lemmas. -/

theorem getValue_missing (r : result) (name : String) (h : missingField r name) :
    r.getValue name = "" := by
  unfold result.getValue
  rw [List.find?_eq_none.mpr]
  intro b hb
  simpa using h b hb

theorem parseResult_missing_created (r : result) (h : missingField r "created") :
    parseResult r = none := by
  unfold parseResult
  rw [getValue_missing r _ h]
  rfl

theorem parse_missing_created (rs : List result)
    (h : ∃ r, r ∈ rs ∧ missingField r "created") : parse rs = none := by
  induction rs with
  | nil =>
    obtain ⟨r, hr, _⟩ := h
    cases hr
  | cons a t ih =>
    obtain ⟨r, hr, hm⟩ := h
    rcases List.mem_cons.mp hr with rfl | htl
    · show (match parseResult r with
        | none => none
        | some s => match parse t with
          | none => none
          | some ss => some (s :: ss)) = none
      rw [parseResult_missing_created r hm]
    · show (match parseResult a with
        | none => none
        | some s => match parse t with
          | none => none
          | some ss => some (s :: ss)) = none
      rw [ih ⟨r, htl, hm⟩]
      cases parseResult a <;> rfl

theorem parse_success_get (rs : List result) :
    ∀ ss : List sequence, parse rs = some ss →
      ∀ i : Nat, ss[i]? = (rs[i]?).bind parseResult := by
  induction rs with
  | nil =>
    intro ss h i
    have : ss = [] := by
      simpa [parse] using h.symm
    subst this
    simp
  | cons a t ih =>
    intro ss h i
    revert h
    show (match parseResult a with
      | none => none
      | some s => match parse t with
        | none => none
        | some ss => some (s :: ss)) = some ss → _
    cases hpa : parseResult a with
    | none => intro h; cases h
    | some s =>
      cases hpt : parse t with
      | none => intro h; cases h
      | some ts =>
        intro h
        have hss : ss = s :: ts := by
          cases h
          rfl
        subst hss
        cases i with
        | zero => simpa using hpa.symm
        | succ j => simpa using ih ts hpt j

theorem parseResult_none_iff (r : result) :
    parseResult r = none ↔ parseSparqlTime (r.getValue "created") = none := by
  unfold parseResult
  cases hp : parseSparqlTime (r.getValue "created") with
  | none => simp
  | some t => simp

theorem parse_none_iff (rs : List result) :
    parse rs = none ↔ ∃ r, r ∈ rs ∧ parseResult r = none := by
  induction rs with
  | nil => simp [parse]
  | cons a t ih =>
    show (match parseResult a with
      | none => none
      | some s => match parse t with
        | none => none
        | some ss => some (s :: ss)) = none ↔ _
    cases hpa : parseResult a with
    | none =>
      constructor
      · intro _
        exact ⟨a, List.mem_cons_self a t, hpa⟩
      · intro _
        rfl
    | some s =>
      cases hpt : parse t with
      | none =>
        obtain ⟨r, hr, hn⟩ := ih.mp hpt
        constructor
        · intro _
          exact ⟨r, List.mem_cons_of_mem a hr, hn⟩
        · intro _
          rfl
      | some ts =>
        constructor
        · intro hc
          cases hc
        · rintro ⟨r, hr, hn⟩
          rcases List.mem_cons.mp hr with rfl | hrt
          · rw [hpa] at hn
            cases hn
          · have := ih.mpr ⟨r, hrt, hn⟩
            rw [hpt] at this
            cases this

/-! ## Cursor lemmas. -/

theorem runTrace_ok_offset (pages : List (List sequence)) :
    ∀ st : SysState,
      (runTrace st (pages.map fun p => (p, (none : Option Nat)))).offset =
        st.offset + ((pages.map List.length).sum : Int) := by
  induction pages with
  | nil => intro st; simp [runTrace]
  | cons p t ih =>
    intro st
    show (runTrace (runCycle st p) (t.map fun p => (p, (none : Option Nat)))).offset = _
    rw [ih]
    show st.offset + (p.length : Int) + _ = _
    rw [List.map_cons, List.sum_cons]
    push_cast
    ring

theorem runTrace_mono (tr : List (List sequence × Option Nat)) :
    ∀ st : SysState, st.offset ≤ (runTrace st tr).offset := by
  induction tr with
  | nil => intro st; exact le_refl _
  | cons c rest ih =>
    intro st
    obtain ⟨page, oc⟩ := c
    cases oc with
    | none =>
      calc st.offset ≤ (runCycle st page).offset := by
            show st.offset ≤ st.offset + (page.length : Int)
            omega
        _ ≤ _ := ih _
    | some k => exact le_refl _

/-! ## Claim theorems and witnesses. -/

/-- Claim C1: ingesting two records whose normalized sequences are
identical but whose identifiers differ yields exactly one fasta file
keyed by the shared hash, a singleton dedup set, and one identifier set
containing both identifiers. -/
theorem dedup_two_records (r1 r2 : sequence) (hseq : r1.Sequence = r2.Sequence)
    (huri : r1.URI ≠ r2.URI) : dedupOutcome r1 r2 := by
  have hH : sequence.Hash r2 = sequence.Hash r1 := by
    unfold sequence.Hash
    rw [hseq]
  have hC : fastaContent r2 = fastaContent r1 := by
    unfold fastaContent
    rw [hH, hseq]
  have k2 : seqSetKey (sequence.Hash r1) ≠ dedupSetKey := seqSetKey_ne_dedup _
  have k1 : dedupSetKey ≠ seqSetKey (sequence.Hash r1) := k2.symm
  have hu : ¬ (r2.URI = r1.URI) := fun he => huri he.symm
  unfold dedupOutcome
  refine ⟨?_, ?_, ?_, ?_, ?_⟩
  · funext n
    show updF (updF (fun _ => none) (fastaName (sequence.Hash r1)) (fastaContent r1))
      (fastaName (sequence.Hash r2)) (fastaContent r2) n = _
    rw [hH, hC]
    unfold updF
    by_cases hn : n = fastaName (sequence.Hash r1) <;> simp [hn]
  · show saddF (saddF (saddF (saddF (fun _ => []) dedupSetKey (sequence.Hash r1))
      (seqSetKey (sequence.Hash r1)) r1.URI) dedupSetKey (sequence.Hash r2))
      (seqSetKey (sequence.Hash r2)) r2.URI dedupSetKey = [sequence.Hash r1]
    rw [hH]
    simp [saddF, k1, k2]
  · show r1.URI ∈ saddF (saddF (saddF (saddF (fun _ => []) dedupSetKey (sequence.Hash r1))
      (seqSetKey (sequence.Hash r1)) r1.URI) dedupSetKey (sequence.Hash r2))
      (seqSetKey (sequence.Hash r2)) r2.URI (seqSetKey (sequence.Hash r1))
    rw [hH]
    simp [saddF, k1, k2, hu]
  · show r2.URI ∈ saddF (saddF (saddF (saddF (fun _ => []) dedupSetKey (sequence.Hash r1))
      (seqSetKey (sequence.Hash r1)) r1.URI) dedupSetKey (sequence.Hash r2))
      (seqSetKey (sequence.Hash r2)) r2.URI (seqSetKey (sequence.Hash r1))
    rw [hH]
    simp [saddF, k1, k2, hu]
  · intro h hne
    by_cases hc : h = sequence.Hash r1
    · exact hc
    · exfalso
      apply hne
      show saddF (saddF (saddF (saddF (fun _ => []) dedupSetKey (sequence.Hash r1))
        (seqSetKey (sequence.Hash r1)) r1.URI) dedupSetKey (sequence.Hash r2))
        (seqSetKey (sequence.Hash r2)) r2.URI (seqSetKey h) = []
      rw [hH]
      have hk3 : seqSetKey h ≠ seqSetKey (sequence.Hash r1) := fun he => hc (seqSetKey_inj he)
      have hk4 : seqSetKey h ≠ dedupSetKey := seqSetKey_ne_dedup h
      simp [saddF, hk3, hk4]

/-- Witness for C1 at the records u1/acgt and u2/acgt. -/
theorem dedup_two_records_witness : dedupOutcome recU1 recU2 :=
  dedup_two_records recU1 recU2 rfl (by decide)

/-- Claim C2 (counterexample): a page whose only record has no uri
binding parses successfully into a record with an empty identifier
field, rather than halting: a missing identifier is not a fatal parse
error, and the record is stored with the field missing. -/
theorem parse_missing_field_counterexample :
    (∃ r, r ∈ pageNoURI ∧ missingField r "uri") ∧
    parse pageNoURI = some [⟨"", "acgt", ⟨2020, 1, 1, 0, 0, 0, 0, 0⟩⟩] := by
  decide

/-- Claim C2 (amended): parsing a page is fatal exactly when some
record carries a created timestamp that does not parse — so a missing
or unparseable created is fatal, and nothing else is; in particular a
record missing the created binding is fatal for the page; every record
whose created parses is itself parsed non-fatally, with the identifier
or sequence field equal to the empty string whenever that binding is
missing; and when parse succeeds every record of the page is
represented at its input position, so no record is silently dropped. -/
theorem parse_missing_created_fatal :
    (∀ rs : List result, parse rs = none ↔
      ∃ r, r ∈ rs ∧ parseSparqlTime (r.getValue "created") = none) ∧
    (∀ rs : List result, (∃ r, r ∈ rs ∧ missingField r "created") → parse rs = none) ∧
    (∀ r : result, parseSparqlTime (r.getValue "created") ≠ none →
      ∃ s, parseResult r = some s ∧
        (missingField r "uri" → s.URI = "") ∧
        (missingField r "elements" → s.Sequence = "")) ∧
    (∀ (rs : List result) (ss : List sequence), parse rs = some ss →
      ∀ i : Nat, ss[i]? = (rs[i]?).bind parseResult) := by
  refine ⟨?_, parse_missing_created, ?_, parse_success_get⟩
  · intro rs
    rw [parse_none_iff]
    constructor
    · rintro ⟨r, hr, hn⟩
      exact ⟨r, hr, (parseResult_none_iff r).mp hn⟩
    · rintro ⟨r, hr, hn⟩
      exact ⟨r, hr, (parseResult_none_iff r).mpr hn⟩
  · intro r hne
    cases hp : parseSparqlTime (r.getValue "created") with
    | none => exact absurd hp hne
    | some t =>
      refine ⟨⟨r.getValue "uri", normalize (r.getValue "elements"), t⟩, ?_, ?_, ?_⟩
      · unfold parseResult
        rw [hp]
      · intro hm
        show r.getValue "uri" = ""
        exact getValue_missing r _ hm
      · intro hm
        show normalize (r.getValue "elements") = ""
        rw [getValue_missing r _ hm]
        rfl

/-- Witness for the amended C2: a page missing the created binding is
fatal, and a record missing the uri binding parses with an empty
identifier. -/
theorem parse_missing_created_fatal_witness :
    parse pageNoCreated = none ∧ parseResult resNoURI ≠ none :=
  ⟨parse_missing_created_fatal.2.1 pageNoCreated ⟨resNoCreated, by decide, by decide⟩,
   fun hc => by
    obtain ⟨s, hs, _, _⟩ := parse_missing_created_fatal.2.2.1 resNoURI (by decide)
    rw [hs] at hc
    cases hc⟩

/-- Claim C3: over completed cycles starting from cursor zero the
cursor accumulates exactly the page sizes; the cursor never decreases
over any run; and a cycle that dies during the storing phase leaves the
cursor unchanged, because the INCRBY only runs after the whole page is
stored. -/
theorem cursor_advances_after_storing :
    (∀ (st : SysState) (pages : List (List sequence)), st.offset = 0 →
      (runTrace st (pages.map fun p => (p, (none : Option Nat)))).offset =
        ((pages.map List.length).sum : Int)) ∧
    (∀ (st : SysState) (tr : List (List sequence × Option Nat)),
      st.offset ≤ (runTrace st tr).offset) ∧
    (∀ (st : SysState) (page : List sequence) (k : Nat)
      (rest : List (List sequence × Option Nat)),
      (runTrace st ((page, some k) :: rest)).offset = st.offset) := by
  refine ⟨?_, ?_, ?_⟩
  · intro st pages h0
    rw [runTrace_ok_offset, h0, zero_add]
  · intro st tr
    exact runTrace_mono tr st
  · intro st page k rest
    rfl

/-- Witness for C3: two completed cycles with pages of sizes one and
two advance the cursor from zero to three. -/
theorem cursor_advances_after_storing_witness :
    (runTrace ⟨emptyStore, 0⟩
      ([[recU1], [recU2, recU3]].map fun p => (p, (none : Option Nat)))).offset = 3 := by
  have h := cursor_advances_after_storing.1 ⟨emptyStore, 0⟩ [[recU1], [recU2, recU3]] rfl
  simpa using h

/-- Claim C4: reconciliation returns one result per hit, in input
order, each carrying exactly the identifier set stored for its hash; a
hash with no dedup entry yields the empty identifier set rather than an
error; nothing is re-ranked or filtered. -/
theorem reconcile_hits (st : Store) (rs : List blastResult) :
    (getURIs st rs).length = rs.length ∧
    (∀ i : Nat, (getURIs st rs)[i]? =
      (rs[i]?).map fun r => withURIs r (smembers st (seqSetKey r.SeqHash))) ∧
    (∀ (i : Nat) (r : blastResult), rs[i]? = some r →
      smembers st (seqSetKey r.SeqHash) = [] →
      (getURIs st rs)[i]? = some (withURIs r [])) := by
  refine ⟨?_, ?_, ?_⟩
  · simp [getURIs]
  · intro i
    simp [getURIs]
  · intro i r h1 h2
    have h3 : (getURIs st rs)[i]? =
        (rs[i]?).map fun r => withURIs r (smembers st (seqSetKey r.SeqHash)) := by
      simp [getURIs]
    rw [h3, h1]
    simp [h2]

/-- Witness for C4: a hit with no dedup entry comes back in place with
an empty identifier set. -/
theorem reconcile_hits_witness :
    (getURIs storeAB [hitA, hitB])[1]? = some (withURIs hitB []) :=
  (reconcile_hits storeAB [hitA, hitB]).2.2 1 hitB rfl (by decide)

/-- Claim C5: raw sequences that differ only in letter case receive the
same content hash, since parsing lower-cases the raw sequence and the
hash is a function of the normalized string only. -/
theorem hash_case_insensitive :
    (∀ raw1 raw2 : String, caseEq raw1 raw2 →
      hashString (normalize raw1) = hashString (normalize raw2)) ∧
    (∀ s1 s2 : sequence, s1.Sequence = s2.Sequence →
      sequence.Hash s1 = sequence.Hash s2) ∧
    (∀ (r : result) (s : sequence), parseResult r = some s →
      s.Sequence = normalize (r.getValue "elements")) := by
  refine ⟨?_, ?_, ?_⟩
  · intro raw1 raw2 h
    have hn : normalize raw1 = normalize raw2 := congrArg String.mk h
    rw [hn]
  · intro s1 s2 h
    unfold sequence.Hash
    rw [h]
  · intro r s h
    revert h
    unfold parseResult
    cases parseSparqlTime (r.getValue "created") with
    | none => intro h; cases h
    | some t => intro h; cases h; rfl

/-- Witness for C5 at ACGT and acgt. -/
theorem hash_case_insensitive_witness :
    hashString (normalize "ACGT") = hashString (normalize "acgt") :=
  hash_case_insensitive.1 "ACGT" "acgt"
    (by show ("ACGT" : String).data.map Char.toLower =
          ("acgt" : String).data.map Char.toLower
        decide)

/-- Claim C8: a page with fewer records than the configured limit makes
the next cycle wait four hours; otherwise it waits two seconds. -/
theorem backoff_policy (seqs : List sequence) (limit : Nat) :
    (seqs.length < limit → mainLoopSleep seqs limit = 14400000000000) ∧
    (limit ≤ seqs.length → mainLoopSleep seqs limit = 2000000000) := by
  constructor
  · intro h
    unfold mainLoopSleep timeHour timeSecond
    rw [if_pos h]
  · intro h
    unfold mainLoopSleep timeHour timeSecond
    rw [if_neg (Nat.not_lt.mpr h)]

/-- Witness for C8 at a one-record page against limits 100 and 1. -/
theorem backoff_policy_witness :
    mainLoopSleep [recU1] 100 = 14400000000000 ∧ mainLoopSleep [recU1] 1 = 2000000000 :=
  ⟨(backoff_policy [recU1] 100).1 (by decide), (backoff_policy [recU1] 1).2 (by decide)⟩

/-! ## Hex format lemmas. -/

theorem hexDigit_mem (n : Nat) : hexDigit n ∈ hexDigits := by
  by_cases h : n < 16
  · interval_cases n <;> decide
  · unfold hexDigit
    rw [List.getD_eq_default]
    · decide
    · have h16 : hexDigits.length = 16 := rfl
      omega

theorem hexChars_length (l : List Nat) : (hexChars l).length = 2 * l.length := by
  induction l with
  | nil => rfl
  | cons b t ih =>
    show (hexChars t).length + 1 + 1 = 2 * (t.length + 1)
    omega

theorem hexChars_all (l : List Nat) : ∀ c ∈ hexChars l, c ∈ hexDigits := by
  induction l with
  | nil => intro c hc; cases hc
  | cons b t ih =>
    intro c hc
    rcases List.mem_cons.mp hc with rfl | hc2
    · exact hexDigit_mem _
    · rcases List.mem_cons.mp hc2 with rfl | hc3
      · exact hexDigit_mem _
      · exact ih c hc3

theorem digestBytes_length (st : SHA1State) : (digestBytes st).length = 20 := by
  simp [digestBytes, wordBytes]

theorem sha1Bytes_length (msg : List Nat) : (sha1Bytes msg).length = 20 := by
  unfold sha1Bytes
  exact digestBytes_length _

theorem hashString_length (s : String) : (hashString s).length = 40 := by
  show (hexChars (sha1Bytes (bytesOfString s))).length = 40
  rw [hexChars_length, sha1Bytes_length]

theorem process_fileOrigin (l : List sequence) :
    ∀ (st : Store) (n c : String), (process st l).fastas n = some c → fileOrigin st l n c := by
  induction l with
  | nil => intro st n c h; exact Or.inl h
  | cons s t ih =>
    intro st n c h
    rw [process_cons] at h
    rcases ih _ _ _ h with h1 | ⟨q, hq, hn, hc⟩
    · by_cases hns : n = fastaName (sequence.Hash s)
      · right
        refine ⟨s, List.mem_cons_self s t, hns, ?_⟩
        have hv : (processOne st s).fastas n = some (fastaContent s) := by
          show updF st.fastas (fastaName (sequence.Hash s)) (fastaContent s) n = _
          rw [hns, updF_self]
        rw [hv] at h1
        injection h1 with h1e
        exact h1e.symm
      · left
        have hv : (processOne st s).fastas n = st.fastas n := updF_other _ _ _ _ hns
        rwa [hv] at h1
    · right
      exact ⟨q, List.mem_cons_of_mem s hq, hn, hc⟩

/-- Claim C9: the content hash of a record is the forty-character
lowercase-hex SHA-1 digest of the normalized sequence, and any fasta
file present after a storing phase either predates it or holds exactly
the tagged bytes of a record of the page. -/
theorem hash_hex_file_format :
    (∀ s : sequence, hashSpec s) ∧
    (∀ (st : Store) (l : List sequence) (n c : String),
      (process st l).fastas n = some c → fileOrigin st l n c) := by
  constructor
  · intro s
    refine ⟨hashString_length _, ?_, rfl⟩
    show ∀ c ∈ hexChars (sha1Bytes (bytesOfString s.Sequence)), c ∈ hexDigits
    exact hexChars_all _
  · intro st l n c h
    exact process_fileOrigin l st n c h

/-- Witness for C9: the hash spec at a concrete record, and the file
origin of a pre-existing file across an empty page. -/
theorem hash_hex_file_format_witness :
    hashSpec recU1 ∧ fileOrigin storeFlat [] "k.fasta" "x" :=
  ⟨hash_hex_file_format.1 recU1,
   hash_hex_file_format.2 storeFlat [] "k.fasta" "x" (by decide)⟩

/-- Claim C10: a nil offset key is durably initialized to zero and
ingestion starts at offset zero; a present integer value is used
unchanged as the resume offset for the following cycles. -/
theorem startup_offset_resume :
    startupOffset none = (0, some 0) ∧
    (∀ n : Int, startupOffset (some n) = (n, some n)) ∧
    (∀ (st0 : Store) (tr : List (List sequence × Option Nat)),
      mainRun none st0 tr = runTrace ⟨st0, 0⟩ tr) ∧
    (∀ (n : Int) (st0 : Store) (page : List sequence),
      (mainRun (some n) st0 [(page, (none : Option Nat))]).offset =
        n + (page.length : Int)) :=
  ⟨rfl, fun _ => rfl, fun _ _ => rfl, fun _ _ _ => rfl⟩

end SynBioBlast
